import Mathlib

/-!
Verification of the block-payload codec of the sequencer
(sequencer/src/block.rs together with the table/payload submodules it uses).

Bytes are modelled as `List Nat` (each byte a value below 256 where produced by
the code); machine-integer casts are modelled with explicit `% 2 ^ w`.
-/

set_option maxHeartbeats 1000000

/-- Little-endian byte string of `v` in exactly `n` bytes, as produced by Rust
`to_le_bytes` after an integer cast (values at or above `2 ^ (8 * n)` truncate,
exactly as the cast does). -/
def u_le : Nat → Nat → List Nat
  | 0, _ => []
  | n + 1, v => v % 256 :: u_le n (v / 256)

/-- Numeric value of a little-endian byte string (each byte taken mod 256). -/
def leVal : List Nat → Nat
  | [] => 0
  | b :: bs => b % 256 + 256 * leVal bs

/-- Big-endian byte string of `v` in exactly `n` bytes. -/
def u_be (n v : Nat) : List Nat := (u_le n v).reverse

/-- Modelled from the spec: the Word codec width in bytes (§4.1, §6; the
submodule `entry.rs` fixing `TxTableEntryWord` is not under src/). Words are
fixed-width little-endian unsigned integers; a 4-byte word is used. -/
def WORD_BYTES : Nat := 4

/-- The Word's maximum representable value. -/
def WORD_MAX : Nat := 2 ^ (8 * WORD_BYTES) - 1

/-- The serialized bytes of a list of Words. -/
def wordsBytes (ws : List Nat) : List Nat := (ws.map (u_le WORD_BYTES)).flatten

/-- Modelled from the spec: Word-codec serialization of a table's word list
(§4.1); fails with an overflow condition when a value exceeds the Word's
capacity. -/
def encodeWords (ws : List Nat) : Option (List Nat) :=
  if ∀ w ∈ ws, w ≤ WORD_MAX then some (wordsBytes ws) else none

/-- Modelled from the spec: read the Word stored at byte offset `off` (§4.2
Parse); a truncated table reads as if zero-padded. -/
def readWord (bs : List Nat) (off : Nat) : Nat :=
  leVal ((bs.drop off).take WORD_BYTES)

/-- A transaction: an opaque byte string tagged with a namespace id
(`Transaction`). -/
structure Transaction where
  vm : Nat
  payload : List Nat
deriving DecidableEq

/-- The namespace table, a wrapper around its serialized bytes
(`NameSpaceTable<TxTableEntryWord>`; field `bytes` as read by
`builder_commitment`). -/
structure NameSpaceTable where
  bytes : List Nat
deriving DecidableEq

/-- `type NsTable = NameSpaceTable<TxTableEntryWord>` (block.rs). -/
abbrev NsTable := NameSpaceTable

/-- A block payload: raw encoded bytes plus its namespace table
(`Payload<TxTableEntryWord>`). -/
structure Payload where
  raw_payload : List Nat
  ns_table : NsTable
deriving DecidableEq

/-- The crate error as visible here: `from_transactions` signals the
block-building error (`BlockBuildingSnafu`). -/
inductive Error where
  | BlockBuilding
deriving DecidableEq

/-- Modelled from the spec: the chain-state capability handed to
`from_transactions`; only its mock is ever consulted here and the code never
reads it (§4.7, §9). -/
inductive NodeState where
  | mock
deriving DecidableEq

/-- Cumulative end offsets: `ends a [l1, l2, ...] = [a + l1, a + l1 + l2, ...]`. -/
def ends (a : Nat) : List Nat → List Nat
  | [] => []
  | l :: ls => (a + l) :: ends (a + l) ls

/-- Fuel-indexed worker for `groupByNs`; the fuel is the list length, so the
recursion is structural. -/
def groupByNsGo : Nat → List Transaction → List (Nat × List Transaction)
  | 0, _ => []
  | _ + 1, [] => []
  | fuel + 1, t :: ts =>
    (t.vm, t :: ts.filter (fun u => u.vm == t.vm)) ::
      groupByNsGo fuel (ts.filter (fun u => u.vm != t.vm))

/-- Modelled from the spec: partition transactions into groups keyed by
namespace id, keys in order of first appearance, each group in the supplied
relative order (§4.4 step 1; `payload.rs` is not under src/). -/
def groupByNs (txs : List Transaction) : List (Nat × List Transaction) :=
  groupByNsGo txs.length txs

/-- Modelled from the spec: a namespace's transaction-table word list — the
count then one cumulative end offset per transaction (§4.3, §6). -/
def txTableWords (g : List Transaction) : List Nat :=
  g.length :: ends 0 (g.map (fun t => t.payload.length))

/-- Modelled from the spec: a namespace's byte region — its serialized
transaction table followed by the concatenated transaction bytes (§4.4
step 2); fails on Word overflow. -/
def nsRegion (g : List Transaction) : Option (List Nat) :=
  match encodeWords (txTableWords g) with
  | none => none
  | some tbl => some (tbl ++ (g.map (fun t => t.payload)).flatten)

/-- Modelled from the spec: build every namespace region in namespace order
(§4.4 steps 2–3), keeping each namespace id with its region bytes. -/
def buildRegions : List (Nat × List Transaction) → Option (List (Nat × List Nat))
  | [] => some []
  | (i, g) :: rest =>
    match nsRegion g with
    | none => none
    | some r =>
      match buildRegions rest with
      | none => none
      | some rs => some ((i, r) :: rs)

/-- Interleave two lists: `interleave [a, b] [c, d] = [a, c, b, d]`. -/
def interleave : List Nat → List Nat → List Nat
  | [], _ => []
  | _ :: _, [] => []
  | a :: xs, b :: ys => a :: b :: interleave xs ys

/-- Modelled from the spec: the namespace-table word list — the entry count
then the (id, end offset) pairs in namespace order (§3, §6). -/
def nsTableWords (regs : List (Nat × List Nat)) : List Nat :=
  regs.length ::
    interleave (regs.map Prod.fst) (ends 0 (regs.map (fun r => r.2.length)))

/-- Modelled from the spec: `Payload::from_txs` (§4.4; `payload.rs` is not
under src/) — group by namespace, build the regions, concatenate them into the
raw payload and serialize the namespace table from the recorded end offsets. -/
def Payload.from_txs (txs : List Transaction) : Option Payload :=
  match buildRegions (groupByNs txs) with
  | none => none
  | some regs =>
    match encodeWords (nsTableWords regs) with
    | none => none
    | some nsB => some ⟨(regs.map Prod.snd).flatten, ⟨nsB⟩⟩

/-- `BlockPayload::from_transactions` (block.rs lines 49–56): build via
`Payload::from_txs`, return the payload together with a clone of its namespace
table; the state argument is never read. -/
def from_transactions {σ : Type} (txs : List Transaction) (_state : σ) :
    Except Error (Payload × NsTable) :=
  match Payload.from_txs txs with
  | some payload => .ok (payload, payload.ns_table)
  | none => .error .BlockBuilding

/-- `BlockPayload::from_bytes` (block.rs lines 58–63): verbatim copy of the
bytes and of the metadata, no validation. -/
def Payload.from_bytes (encoded_transactions : List Nat) (metadata : NsTable) :
    Payload :=
  { raw_payload := encoded_transactions, ns_table := metadata }

/-- `BlockPayload::genesis` (block.rs lines 66–73): `from_transactions` on the
empty list with the mock state, then `unwrap`; the error arm models the
(unreached) panic branch of `unwrap`. -/
def genesis : Payload × NsTable :=
  match from_transactions [] NodeState.mock with
  | .ok v => v
  | .error _ => (⟨[], ⟨[]⟩⟩, ⟨[]⟩)

/-- `BlockPayload::encode` (block.rs lines 75–77): the raw payload bytes,
always `Ok`. -/
def Payload.encode (p : Payload) : Except Error (List Nat) :=
  .ok p.raw_payload

/-- Modelled from the spec: the entry count of a namespace table — its leading
count Word (§4.2 Parse; `tables.rs` is not under src/). -/
def nsEntryCount (m : NsTable) : Nat := readWord m.bytes 0

/-- Modelled from the spec: the j-th (namespace id, end offset) pair of a
namespace table (§4.2; words `2j+1` and `2j+2`). -/
def nsEntry (m : NsTable) (j : Nat) : Nat × Nat :=
  (readWord m.bytes (WORD_BYTES * (2 * j + 1)),
    readWord m.bytes (WORD_BYTES * (2 * j + 2)))

/-- Modelled from the spec: §4.2 Lookup — the j-th namespace's
(id, start offset, end offset); the first start is implicitly 0, otherwise the
previous entry's end. -/
def nsRange (m : NsTable) (j : Nat) : Nat × Nat × Nat :=
  ((nsEntry m j).1, if j = 0 then 0 else (nsEntry m (j - 1)).2, (nsEntry m j).2)

/-- Modelled from the spec: the count Word of a namespace region's transaction
table (§4.3). -/
def txTableCount (ns : List Nat) : Nat := readWord ns 0

/-- Modelled from the spec: the k-th transaction end offset stored in a
namespace region's transaction table (§4.3). -/
def txEnd (ns : List Nat) (k : Nat) : Nat := readWord ns (WORD_BYTES * (k + 1))

/-- Modelled from the spec: the transaction bytes of a namespace region, after
its transaction table. -/
def txData (ns : List Nat) : List Nat :=
  ns.drop (WORD_BYTES * (txTableCount ns + 1))

/-- Modelled from the spec: decode the transactions of one namespace region by
slicing at the table's offsets; out-of-range offsets truncate instead of
reading out of bounds (§4.5). -/
def nsTxs (id : Nat) (ns : List Nat) : List Transaction :=
  (List.range (txTableCount ns)).map (fun k =>
    ⟨id, ((txData ns).drop (if k = 0 then 0 else txEnd ns (k - 1))).take
      (txEnd ns k - if k = 0 then 0 else txEnd ns (k - 1))⟩)

/-- Modelled from the spec: every transaction of a payload in canonical
(namespace order, intra-namespace order) order (§4.5; `tx_iterator.rs` and
`queryable.rs` are not under src/). -/
def txsOf (p : Payload) (m : NsTable) : List Transaction :=
  ((List.range (nsEntryCount m)).map (fun j =>
    nsTxs (nsRange m j).1
      ((p.raw_payload.drop (nsRange m j).2.1).take
        ((nsRange m j).2.2 - (nsRange m j).2.1)))).flatten

/-- The `enumerate` iterator of `queryable.rs`: (global index, transaction)
pairs in canonical order. -/
def Payload.enumerate (p : Payload) (m : NsTable) : List (Nat × Transaction) :=
  (txsOf p m).enum

/-- `BlockPayload::get_transactions` (block.rs lines 95–100): `enumerate`
without the indices. -/
def get_transactions (p : Payload) (m : NsTable) : List Transaction :=
  (p.enumerate m).map Prod.snd

/-- SHA-256 round constants (FIPS 180-4, as implemented by the `sha2` crate),
written in decimal. -/
def shaK : List Nat :=
  [1116352408, 1899447441, 3049323471, 3921009573, 961987163,
    1508970993, 2453635748, 2870763221, 3624381080, 310598401,
    607225278, 1426881987, 1925078388, 2162078206, 2614888103,
    3248222580, 3835390401, 4022224774, 264347078, 604807628,
    770255983, 1249150122, 1555081692, 1996064986, 2554220882,
    2821834349, 2952996808, 3210313671, 3336571891, 3584528711,
    113926993, 338241895, 666307205, 773529912, 1294757372,
    1396182291, 1695183700, 1986661051, 2177026350, 2456956037,
    2730485921, 2820302411, 3259730800, 3345764771, 3516065817,
    3600352804, 4094571909, 275423344, 430227734, 506948616,
    659060556, 883997877, 958139571, 1322822218, 1537002063,
    1747873779, 1955562222, 2024104815, 2227730452, 2361852424,
    2428436474, 2756734187, 3204031479, 3329325298]

/-- SHA-256 initial hash words, written in decimal. -/
def shaH0 : List Nat :=
  [1779033703, 3144134277, 1013904242, 2773480762,
    1359893119, 2600822924, 528734635, 1541459225]

/-- `2 ^ 32`, the modulus of 32-bit word arithmetic. -/
def M32 : Nat := 2 ^ 32

/-- Rotate a 32-bit word right by `n` bits. -/
def rotr (n x : Nat) : Nat := x / 2 ^ n + x % 2 ^ n * 2 ^ (32 - n)

/-- Bitwise complement of a 32-bit word. -/
def not32 (x : Nat) : Nat := Nat.xor x (M32 - 1)

/-- The big-endian 32-bit words of a byte string. -/
def bytesToWordsBE : List Nat → List Nat
  | a :: b :: c :: d :: rest =>
    (a % 256 * 2 ^ 24 + b % 256 * 2 ^ 16 + c % 256 * 2 ^ 8 + d % 256) ::
      bytesToWordsBE rest
  | _ => []

/-- Append the next message-schedule word. -/
def scheduleStep (ws : List Nat) : List Nat :=
  let i := ws.length
  let w16 := ws.getD (i - 16) 0
  let w15 := ws.getD (i - 15) 0
  let w7 := ws.getD (i - 7) 0
  let w2 := ws.getD (i - 2) 0
  let s0 := Nat.xor (Nat.xor (rotr 7 w15) (rotr 18 w15)) (w15 / 2 ^ 3)
  let s1 := Nat.xor (Nat.xor (rotr 17 w2) (rotr 19 w2)) (w2 / 2 ^ 10)
  ws ++ [(w16 + s0 + w7 + s1) % M32]

/-- Extend the message schedule by `n` words. -/
def extendSchedule : List Nat → Nat → List Nat
  | ws, 0 => ws
  | ws, n + 1 => extendSchedule (scheduleStep ws) n

/-- One SHA-256 round on the eight working words. -/
def shaRound : List Nat → Nat → Nat → List Nat
  | [a, b, c, d, e, f, g, h], k, w =>
    let S1 := Nat.xor (Nat.xor (rotr 6 e) (rotr 11 e)) (rotr 25 e)
    let ch := Nat.xor (Nat.land e f) (Nat.land (not32 e) g)
    let t1 := (h + S1 + ch + k + w) % M32
    let S0 := Nat.xor (Nat.xor (rotr 2 a) (rotr 13 a)) (rotr 22 a)
    let mj := Nat.xor (Nat.xor (Nat.land a b) (Nat.land a c)) (Nat.land b c)
    let t2 := (S0 + mj) % M32
    [(t1 + t2) % M32, a, b, c, (d + t1) % M32, e, f, g]
  | st, _, _ => st

/-- SHA-256 compression of one 64-byte block into the hash state. -/
def compress (h : List Nat) (block : List Nat) : List Nat :=
  let ws := extendSchedule (bytesToWordsBE block) 48
  let fin := (shaK.zip ws).foldl (fun st kw => shaRound st kw.1 kw.2) h
  (h.zip fin).map (fun ab => (ab.1 + ab.2) % M32)

/-- Process every complete 64-byte block of `buf`, returning the new hash
state and the unprocessed remainder (fewer than 64 bytes). -/
def absorb (h : List Nat) (buf : List Nat) : List Nat × List Nat :=
  if _h64 : 64 ≤ buf.length then absorb (compress h (buf.take 64)) (buf.drop 64)
  else (h, buf)
termination_by buf.length
decreasing_by simp only [List.length_drop]; omega

/-- The SHA-256 padding tail for a message of `L` bytes: `0x80`, zeros to a
block boundary, then the bit length as 8 big-endian bytes. -/
def padTail (L : Nat) : List Nat :=
  0x80 :: (List.replicate ((64 - (L + 9) % 64) % 64) 0 ++ u_be 8 (8 * L))

/-- A SHA-256 padded message (a whole number of 64-byte blocks). -/
def shaPad (msg : List Nat) : List Nat := msg ++ padTail msg.length

/-- One-shot SHA-256 digest (32 bytes) of a byte string. -/
def sha256 (msg : List Nat) : List Nat :=
  ((absorb shaH0 (shaPad msg)).1.map (u_be 4)).flatten

/-- Streaming SHA-256 state, mirroring the incremental `sha2::Sha256` digest
object used by `builder_commitment`. -/
structure Hasher where
  hash : List Nat
  buf : List Nat
  len : Nat

/-- `Sha256::new()`. -/
def Hasher.new : Hasher := ⟨shaH0, [], 0⟩

/-- `Digest::update`: absorb more bytes into the stream. -/
def Hasher.update (st : Hasher) (data : List Nat) : Hasher :=
  ⟨(absorb st.hash (st.buf ++ data)).1, (absorb st.hash (st.buf ++ data)).2,
    st.len + data.length⟩

/-- `Digest::finalize`: pad with the total length and emit the digest bytes. -/
def Hasher.finalize (st : Hasher) : List Nat :=
  ((absorb st.hash (st.buf ++ padTail st.len)).1.map (u_be 4)).flatten

/-- `BlockPayload::builder_commitment` (block.rs lines 84–93): six incremental
updates — the three 8-byte little-endian lengths, then the raw payload, the
payload's own table bytes and the metadata bytes — finalized to a SHA-256
digest (`BuilderCommitment::from_raw_digest`). -/
def builder_commitment (p : Payload) (metadata : NsTable) : List Nat :=
  ((((((Hasher.new.update (u_le 8 p.raw_payload.length)).update
    (u_le 8 p.ns_table.bytes.length)).update
    (u_le 8 metadata.bytes.length)).update
    p.raw_payload).update
    p.ns_table.bytes).update
    metadata.bytes).finalize

/-- Modelled from the spec: the structural commitment of a transaction — a
digest of a canonical serialization (§4.6; the `committable` scheme is an
external collaborator, not under src/). -/
def Transaction.commit (t : Transaction) : List Nat :=
  sha256 (u_le 8 t.vm ++ u_le 8 t.payload.length ++ t.payload)

/-- `BlockPayload::transaction_commitments` (block.rs lines 79–81): the commit
of each enumerated transaction, in enumeration order. -/
def transaction_commitments (p : Payload) (m : NsTable) : List (List Nat) :=
  (p.enumerate m).map (fun it => it.2.commit)

/-- The builder-commitment pre-image: the three 8-byte little-endian lengths
followed by the three byte strings, in that order. -/
def commitmentPreimage (a b c : List Nat) : List Nat :=
  u_le 8 a.length ++ u_le 8 b.length ++ u_le 8 c.length ++ a ++ b ++ c

/-- The bytes a namespace's region occupies: one count Word, one end-offset
Word per transaction, then the transaction bytes. -/
def regionLen (g : List Transaction) : Nat :=
  WORD_BYTES * (g.length + 1) + (g.map (fun t => t.payload.length)).sum

/-- The final — hence largest — required namespace end offset of a transaction
set: the total raw-payload length its block would need. -/
def requiredPayloadLen (txs : List Transaction) : Nat :=
  ((groupByNs txs).map (fun x => regionLen x.2)).sum

/-! ### Word-codec lemmas -/

theorem u_le_length (n v : Nat) : (u_le n v).length = n := by
  induction n generalizing v with
  | zero => rfl
  | succ n ih => simp [u_le, ih]

theorem leVal_u_le (n v : Nat) : leVal (u_le n v) = v % 2 ^ (8 * n) := by
  induction n generalizing v with
  | zero => simp [u_le, leVal, Nat.mod_one]
  | succ n ih =>
    have h256 : (2 : Nat) ^ (8 * (n + 1)) = 256 * 2 ^ (8 * n) := by ring
    simp only [u_le, leVal, ih, h256, Nat.mod_mul]
    have : v % 256 % 256 = v % 256 := Nat.mod_mod_of_dvd v dvd_rfl
    omega

theorem u_le_eq_of_mod (n v w : Nat) (h : v % 2 ^ (8 * n) = w % 2 ^ (8 * n)) :
    u_le n v = u_le n w := by
  induction n generalizing v w with
  | zero => rfl
  | succ n ih =>
    have h256 : (2 : Nat) ^ (8 * (n + 1)) = 256 * 2 ^ (8 * n) := by ring
    rw [h256, Nat.mod_mul, Nat.mod_mul] at h
    have h1 : v % 256 < 256 := Nat.mod_lt v (by omega)
    have h2 : w % 256 < 256 := Nat.mod_lt w (by omega)
    have hb : v % 256 = w % 256 := by omega
    have hd : v / 256 % 2 ^ (8 * n) = w / 256 % 2 ^ (8 * n) := by omega
    simp [u_le, hb, ih _ _ hd]

theorem leVal_u_le_of_lt (n v : Nat) (h : v < 2 ^ (8 * n)) :
    leVal (u_le n v) = v := by
  rw [leVal_u_le, Nat.mod_eq_of_lt h]

theorem readWord_wordsBytes :
    ∀ (ws rest : List Nat) (i : Nat), (∀ w ∈ ws, w ≤ WORD_MAX) → i < ws.length →
      readWord (wordsBytes ws ++ rest) (WORD_BYTES * i) = ws.getD i 0 := by
  intro ws
  induction ws with
  | nil => intro rest i _ hi; simp at hi
  | cons w ws ih =>
    intro rest i hall hi
    have hw : w ≤ WORD_MAX := hall w (List.mem_cons_self w ws)
    have hws : ∀ x ∈ ws, x ≤ WORD_MAX := fun x hx => hall x (List.mem_cons_of_mem w hx)
    have h4 : (u_le WORD_BYTES w).length = WORD_BYTES := u_le_length _ _
    have hchunk : wordsBytes (w :: ws) ++ rest
        = u_le WORD_BYTES w ++ (wordsBytes ws ++ rest) := by
      simp [wordsBytes]
    cases i with
    | zero =>
      rw [hchunk]
      show leVal ((List.drop 0 _).take WORD_BYTES) = w
      rw [List.drop_zero]
      rw [show (u_le WORD_BYTES w ++ (wordsBytes ws ++ rest)).take WORD_BYTES
            = (u_le WORD_BYTES w ++ (wordsBytes ws ++ rest)).take
                (u_le WORD_BYTES w).length by rw [h4],
        List.take_left]
      apply leVal_u_le_of_lt
      have hpos : (0 : Nat) < 2 ^ (8 * WORD_BYTES) := Nat.pos_pow_of_pos _ (by omega)
      simp only [WORD_MAX] at hw
      omega
    | succ i =>
      rw [hchunk]
      have hdrop : (u_le WORD_BYTES w ++ (wordsBytes ws ++ rest)).drop (WORD_BYTES * (i + 1))
          = (wordsBytes ws ++ rest).drop (WORD_BYTES * i) := by
        rw [show WORD_BYTES * (i + 1) = (u_le WORD_BYTES w).length + WORD_BYTES * i by
          rw [h4]; ring]
        exact List.drop_append _
      show leVal (((u_le WORD_BYTES w ++ (wordsBytes ws ++ rest)).drop
          (WORD_BYTES * (i + 1))).take WORD_BYTES) = (w :: ws).getD (i + 1) 0
      rw [hdrop, List.getD_cons_succ]
      exact ih rest i hws (Nat.lt_of_succ_lt_succ hi)

theorem encodeWords_some {ws : List Nat} (h : ∀ w ∈ ws, w ≤ WORD_MAX) :
    encodeWords ws = some (wordsBytes ws) := by
  simp only [encodeWords]
  rw [if_pos h]

theorem encodeWords_eq_some {ws bs : List Nat} (h : encodeWords ws = some bs) :
    bs = wordsBytes ws ∧ ∀ w ∈ ws, w ≤ WORD_MAX := by
  by_cases hc : ∀ w ∈ ws, w ≤ WORD_MAX
  · rw [encodeWords_some hc] at h
    exact ⟨(Option.some_inj.mp h).symm, hc⟩
  · simp [encodeWords, hc] at h

theorem encodeWords_none {ws : List Nat} (h : ∃ w ∈ ws, WORD_MAX < w) :
    encodeWords ws = none := by
  have hc : ¬ ∀ w ∈ ws, w ≤ WORD_MAX := by
    intro hall
    obtain ⟨w, hw, hlt⟩ := h
    exact absurd (hall w hw) (by omega)
  simp [encodeWords, hc]

theorem wordsBytes_length (ws : List Nat) :
    (wordsBytes ws).length = WORD_BYTES * ws.length := by
  induction ws with
  | nil => simp [wordsBytes]
  | cons w ws ih =>
    simp only [wordsBytes, List.map_cons, List.flatten_cons, List.length_append,
      u_le_length, List.length_cons] at ih ⊢
    rw [ih]; ring

/-! ### List helpers -/

theorem ext_getD {α : Type} (d : α) (l₁ l₂ : List α) (hlen : l₁.length = l₂.length)
    (h : ∀ i, i < l₁.length → l₁.getD i d = l₂.getD i d) : l₁ = l₂ := by
  apply List.ext_getElem hlen
  intro n h₁ h₂
  have hd := h n h₁
  rwa [List.getD_eq_getElem _ _ h₁, List.getD_eq_getElem _ _ h₂] at hd

theorem getD_map {α β : Type} (f : α → β) (d : α) (l : List α) (i : Nat)
    (hi : i < l.length) : (l.map f).getD i (f d) = f (l.getD i d) := by
  rw [List.getD_eq_getElem _ _ (by simpa using hi), List.getD_eq_getElem _ _ hi,
    List.getElem_map]

theorem getD_mem {α : Type} (l : List α) (i : Nat) (d : α) (hi : i < l.length) :
    l.getD i d ∈ l := by
  rw [List.getD_eq_getElem _ _ hi]
  exact List.getElem_mem hi

theorem ends_length (a : Nat) (ls : List Nat) : (ends a ls).length = ls.length := by
  induction ls generalizing a with
  | nil => rfl
  | cons l ls ih => simp [ends, ih]

theorem ends_getD (a : Nat) (ls : List Nat) (i : Nat) (hi : i < ls.length) :
    (ends a ls).getD i 0 = a + (ls.take (i + 1)).sum := by
  induction ls generalizing a i with
  | nil => simp at hi
  | cons l ls ih =>
    cases i with
    | zero => simp [ends, List.take_succ_cons]
    | succ i =>
      have hi' : i < ls.length := Nat.lt_of_succ_lt_succ hi
      simp only [ends, List.getD_cons_succ, ih (a + l) i hi', List.take_succ_cons,
        List.sum_cons]
      ring

theorem ends_sum_mem (a : Nat) (ls : List Nat) (h : ls ≠ []) : a + ls.sum ∈ ends a ls := by
  induction ls generalizing a with
  | nil => exact absurd rfl h
  | cons l ls ih =>
    by_cases hnil : ls = []
    · subst hnil
      simp [ends]
    · have hmem := ih (a + l) hnil
      simp only [ends, List.sum_cons]
      rw [show a + (l + ls.sum) = a + l + ls.sum by ring]
      exact List.mem_cons_of_mem _ hmem

theorem interleave_length (xs ys : List Nat) (h : xs.length = ys.length) :
    (interleave xs ys).length = 2 * xs.length := by
  induction xs generalizing ys with
  | nil => simp [interleave]
  | cons x xs ih =>
    cases ys with
    | nil => simp at h
    | cons y ys =>
      simp only [List.length_cons] at h
      simp only [interleave, List.length_cons, ih ys (by omega)]
      ring

theorem interleave_getD_even (xs ys : List Nat) (j : Nat) (hj : j < xs.length)
    (hlen : ys.length = xs.length) :
    (interleave xs ys).getD (2 * j) 0 = xs.getD j 0 := by
  induction xs generalizing ys j with
  | nil => simp at hj
  | cons x xs ih =>
    cases ys with
    | nil => simp at hlen
    | cons y ys =>
      cases j with
      | zero => simp [interleave]
      | succ j =>
        rw [show 2 * (j + 1) = 2 * j + 1 + 1 by ring]
        simp only [interleave, List.getD_cons_succ]
        simp only [List.length_cons] at hlen
        exact ih ys j (Nat.lt_of_succ_lt_succ hj) (by omega)

theorem interleave_getD_odd (xs ys : List Nat) (j : Nat) (hj : j < ys.length)
    (hlen : ys.length = xs.length) :
    (interleave xs ys).getD (2 * j + 1) 0 = ys.getD j 0 := by
  induction xs generalizing ys j with
  | nil =>
    simp only [List.length_nil] at hlen
    omega
  | cons x xs ih =>
    cases ys with
    | nil => simp at hj
    | cons y ys =>
      cases j with
      | zero => simp [interleave]
      | succ j =>
        rw [show 2 * (j + 1) + 1 = 2 * j + 1 + 1 + 1 by ring]
        simp only [interleave, List.getD_cons_succ]
        simp only [List.length_cons] at hlen
        exact ih ys j (Nat.lt_of_succ_lt_succ hj) (by omega)

theorem flatten_drop_take {α : Type} (d : List α) :
    ∀ (rs : List (List α)) (j : Nat), j < rs.length →
      (rs.flatten.drop (((rs.take j).map List.length).sum)).take (rs.getD j d).length
        = rs.getD j d := by
  intro rs
  induction rs with
  | nil => intro j hj; simp at hj
  | cons r rs ih =>
    intro j hj
    cases j with
    | zero =>
      simp only [List.take_zero, List.map_nil, List.sum_nil, List.drop_zero,
        List.getD_cons_zero, List.flatten_cons]
      exact List.take_left r _
    | succ j =>
      simp only [List.take_succ_cons, List.map_cons, List.sum_cons,
        List.getD_cons_succ, List.flatten_cons]
      rw [List.drop_append]
      exact ih j (Nat.lt_of_succ_lt_succ hj)

/-! ### Grouping lemmas -/

theorem groupByNsGo_fuel :
    ∀ (n m : Nat) (l : List Transaction), l.length ≤ n → l.length ≤ m →
      groupByNsGo n l = groupByNsGo m l := by
  intro n
  induction n with
  | zero =>
    intro m l hn _
    have hl : l = [] := List.eq_nil_of_length_eq_zero (by omega)
    subst hl
    cases m <;> rfl
  | succ n ih =>
    intro m l hn hm
    cases l with
    | nil => cases m <;> rfl
    | cons t ts =>
      cases m with
      | zero => simp at hm
      | succ m =>
        simp only [groupByNsGo]
        congr 1
        have hf := List.length_filter_le (fun u => u.vm != t.vm) ts
        simp only [List.length_cons] at hn hm
        exact ih m _ (by omega) (by omega)

theorem groupByNs_nil : groupByNs [] = [] := rfl

theorem groupByNs_cons (t : Transaction) (ts : List Transaction) :
    groupByNs (t :: ts) = (t.vm, t :: ts.filter (fun u => u.vm == t.vm)) ::
      groupByNs (ts.filter (fun u => u.vm != t.vm)) := by
  show groupByNsGo (ts.length + 1) (t :: ts) = _
  simp only [groupByNsGo]
  congr 1
  exact groupByNsGo_fuel ts.length _ _
    (List.length_filter_le _ ts) (Nat.le_refl _)

theorem groupByNs_key_mem :
    ∀ (n : Nat) (txs : List Transaction), txs.length ≤ n →
      ∀ id g, (id, g) ∈ groupByNs txs → ∃ t ∈ txs, t.vm = id := by
  intro n
  induction n with
  | zero =>
    intro txs hlen id g hmem
    have hl : txs = [] := List.eq_nil_of_length_eq_zero (by omega)
    subst hl
    simp [groupByNs_nil] at hmem
  | succ n ih =>
    intro txs hlen id g hmem
    cases txs with
    | nil => simp [groupByNs_nil] at hmem
    | cons t ts =>
      rw [groupByNs_cons] at hmem
      rcases List.mem_cons.mp hmem with heq | htail
      · have hid : id = t.vm := congrArg Prod.fst heq
        exact ⟨t, List.mem_cons_self t ts, hid.symm⟩
      · have hf := List.length_filter_le (fun u => u.vm != t.vm) ts
        simp only [List.length_cons] at hlen
        obtain ⟨u, hu, hvm⟩ := ih _ (by omega) id g htail
        exact ⟨u, List.mem_cons_of_mem t (List.mem_of_mem_filter hu), hvm⟩

theorem groupByNs_filter :
    ∀ (n : Nat) (txs : List Transaction), txs.length ≤ n →
      ∀ id g, (id, g) ∈ groupByNs txs → g = txs.filter (fun u => u.vm == id) := by
  intro n
  induction n with
  | zero =>
    intro txs hlen id g hmem
    have hl : txs = [] := List.eq_nil_of_length_eq_zero (by omega)
    subst hl
    simp [groupByNs_nil] at hmem
  | succ n ih =>
    intro txs hlen id g hmem
    cases txs with
    | nil => simp [groupByNs_nil] at hmem
    | cons t ts =>
      rw [groupByNs_cons] at hmem
      rcases List.mem_cons.mp hmem with heq | htail
      · have hid : id = t.vm := congrArg Prod.fst heq
        have hg : g = t :: ts.filter (fun u => u.vm == t.vm) := congrArg Prod.snd heq
        subst hid
        rw [hg, List.filter_cons_of_pos (by simp)]
      · have hf := List.length_filter_le (fun u => u.vm != t.vm) ts
        simp only [List.length_cons] at hlen
        obtain ⟨u, hu, huvm⟩ := groupByNs_key_mem _ _ (Nat.le_refl _) id g htail
        have hune := List.of_mem_filter hu
        have hne : id ≠ t.vm := by
          rw [← huvm]
          simpa using hune
        have hg := ih _ (by omega) id g htail
        rw [hg, List.filter_filter]
        rw [List.filter_cons_of_neg (by simpa using hne.symm)]
        apply List.filter_congr
        intro u hu
        by_cases hid : u.vm = id
        · simp [hid, hne]
        · simp [hid]

theorem groupByNs_vm_eq {txs : List Transaction} {id : Nat} {g : List Transaction}
    (h : (id, g) ∈ groupByNs txs) : ∀ t ∈ g, t.vm = id := by
  have hg := groupByNs_filter txs.length txs (Nat.le_refl _) id g h
  subst hg
  intro t ht
  simpa using List.of_mem_filter ht

/-! ### Region build/decode lemmas -/

theorem getD_map_payload (g : List Transaction) (k : Nat) (d : Transaction)
    (hk : k < g.length) :
    (g.map (fun t => t.payload)).getD k [] = (g.getD k d).payload := by
  rw [List.getD_eq_getElem _ _ (by simpa using hk), List.getD_eq_getElem _ _ hk,
    List.getElem_map]

theorem getD_map_payload_length (g : List Transaction) (k : Nat) (d : Transaction)
    (hk : k < g.length) :
    (g.map (fun t => t.payload.length)).getD k 0 = (g.getD k d).payload.length := by
  rw [List.getD_eq_getElem _ _ (by simpa using hk), List.getD_eq_getElem _ _ hk,
    List.getElem_map]

theorem getD_map_fst_reg (regs : List (Nat × List Nat)) (j : Nat)
    (hj : j < regs.length) :
    (regs.map Prod.fst).getD j 0 = (regs.getD j (0, [])).1 := by
  rw [List.getD_eq_getElem _ _ (by simpa using hj), List.getD_eq_getElem _ _ hj,
    List.getElem_map]

theorem getD_map_snd_reg (regs : List (Nat × List Nat)) (j : Nat)
    (hj : j < regs.length) :
    (regs.map Prod.snd).getD j [] = (regs.getD j (0, [])).2 := by
  rw [List.getD_eq_getElem _ _ (by simpa using hj), List.getD_eq_getElem _ _ hj,
    List.getElem_map]

theorem getD_map_len_reg (regs : List (Nat × List Nat)) (j : Nat)
    (hj : j < regs.length) :
    (regs.map (fun x => x.2.length)).getD j 0 = (regs.getD j (0, [])).2.length := by
  rw [List.getD_eq_getElem _ _ (by simpa using hj), List.getD_eq_getElem _ _ hj,
    List.getElem_map]

theorem getD_map_snd_gs (gs : List (Nat × List Transaction)) (j : Nat)
    (hj : j < gs.length) :
    (gs.map Prod.snd).getD j [] = (gs.getD j (0, [])).2 := by
  rw [List.getD_eq_getElem _ _ (by simpa using hj), List.getD_eq_getElem _ _ hj,
    List.getElem_map]

theorem nsRegion_some {g : List Transaction} {r : List Nat} (h : nsRegion g = some r) :
    r = wordsBytes (txTableWords g) ++ (g.map (fun t => t.payload)).flatten ∧
      ∀ w ∈ txTableWords g, w ≤ WORD_MAX := by
  unfold nsRegion at h
  cases he : encodeWords (txTableWords g) with
  | none => rw [he] at h; exact absurd h (by simp)
  | some tbl =>
    rw [he] at h
    obtain ⟨htbl, hw⟩ := encodeWords_eq_some he
    refine ⟨?_, hw⟩
    have hr := Option.some.inj h
    rw [← hr, htbl]

theorem buildRegions_some :
    ∀ {gs : List (Nat × List Transaction)} {regs : List (Nat × List Nat)},
      buildRegions gs = some regs →
      regs.length = gs.length ∧
        ∀ i, i < gs.length →
          (regs.getD i (0, [])).1 = (gs.getD i (0, [])).1 ∧
            nsRegion (gs.getD i (0, [])).2 = some (regs.getD i (0, [])).2 := by
  intro gs
  induction gs with
  | nil =>
    intro regs h
    have hr : regs = [] := (Option.some.inj h).symm
    subst hr
    refine ⟨rfl, ?_⟩
    intro i hi
    simp at hi
  | cons pg gs ih =>
    intro regs h
    obtain ⟨i0, g⟩ := pg
    simp only [buildRegions] at h
    cases hr : nsRegion g with
    | none => rw [hr] at h; exact absurd h (by simp)
    | some r =>
      rw [hr] at h
      cases hb : buildRegions gs with
      | none => rw [hb] at h; exact absurd h (by simp)
      | some rs =>
        rw [hb] at h
        have hregs : regs = (i0, r) :: rs := (Option.some.inj h).symm
        subst hregs
        obtain ⟨hlen, hpt⟩ := ih hb
        refine ⟨by simp [hlen], ?_⟩
        intro i hi
        cases i with
        | zero =>
          simp only [List.getD_cons_zero]
          constructor
          · trivial
          · exact hr
        | succ i =>
          simp only [List.getD_cons_succ]
          exact hpt i (by simpa using Nat.lt_of_succ_lt_succ hi)

theorem nsTxs_decode (id : Nat) (g : List Transaction) (r : List Nat)
    (h : nsRegion g = some r) (hvm : ∀ t ∈ g, t.vm = id) :
    nsTxs id r = g := by
  obtain ⟨hr, hw⟩ := nsRegion_some h
  have hTWlen : (txTableWords g).length = g.length + 1 := by
    simp [txTableWords, ends_length]
  have hcnt : txTableCount r = g.length := by
    have h0 := readWord_wordsBytes (txTableWords g)
      ((g.map (fun t => t.payload)).flatten) 0 hw (by omega)
    rw [Nat.mul_zero] at h0
    rw [txTableCount, hr, h0, txTableWords, List.getD_cons_zero]
  have hTlen : (wordsBytes (txTableWords g)).length = WORD_BYTES * (g.length + 1) := by
    rw [wordsBytes_length, hTWlen]
  have hdata : txData r = (g.map (fun t => t.payload)).flatten := by
    rw [txData, hcnt, hr, ← hTlen]
    exact List.drop_left _ _
  have hend : ∀ k, k < g.length →
      txEnd r k = ((g.map (fun t => t.payload.length)).take (k + 1)).sum := by
    intro k hk
    have hk1 := readWord_wordsBytes (txTableWords g)
      ((g.map (fun t => t.payload)).flatten) (k + 1) hw (by omega)
    rw [txEnd, hr, hk1, txTableWords, List.getD_cons_succ,
      ends_getD 0 _ k (by simpa using hk), Nat.zero_add]
  apply ext_getD (⟨id, []⟩ : Transaction)
  · simp [nsTxs, hcnt]
  · intro k hk0
    have hk : k < g.length := by simpa [nsTxs, hcnt] using hk0
    have hlhs : (nsTxs id r).getD k ⟨id, []⟩ =
        ⟨id, ((txData r).drop (if k = 0 then 0 else txEnd r (k - 1))).take
          (txEnd r k - if k = 0 then 0 else txEnd r (k - 1))⟩ := by
      rw [List.getD_eq_getElem _ _ hk0]
      simp only [nsTxs, List.getElem_map, List.getElem_range]
    have hstart : (if k = 0 then 0 else txEnd r (k - 1)) =
        ((g.map (fun t => t.payload.length)).take k).sum := by
      cases k with
      | zero => simp
      | succ k =>
        rw [if_neg (Nat.succ_ne_zero k), Nat.succ_sub_one]
        exact hend k (by omega)
    have hsucc : ((g.map (fun t => t.payload.length)).take (k + 1)).sum
        = ((g.map (fun t => t.payload.length)).take k).sum
          + (g.map (fun t => t.payload.length)).getD k 0 := by
      rw [List.sum_take_succ _ k (by simpa using hk),
        List.getD_eq_getElem _ _ (by simpa using hk)]
    have hT : txEnd r k - ((g.map (fun t => t.payload.length)).take k).sum
        = ((g.map (fun t => t.payload)).getD k []).length := by
      have he := hend k hk
      have hlen1 := getD_map_payload_length g k ⟨id, []⟩ hk
      have hlen2 : ((g.map (fun t => t.payload)).getD k []).length
          = (g.getD k ⟨id, []⟩).payload.length := by
        rw [getD_map_payload g k ⟨id, []⟩ hk]
      omega
    have hidx : (((g.map (fun t => t.payload)).take k).map List.length).sum
        = ((g.map (fun t => t.payload.length)).take k).sum := by
      rw [List.map_take, List.map_map]
      rfl
    have hslice : ((txData r).drop (if k = 0 then 0 else txEnd r (k - 1))).take
        (txEnd r k - if k = 0 then 0 else txEnd r (k - 1))
        = (g.getD k ⟨id, []⟩).payload := by
      rw [hdata, hstart, hT, ← hidx]
      rw [flatten_drop_take [] (g.map (fun t => t.payload)) k (by simpa using hk)]
      exact getD_map_payload g k ⟨id, []⟩ hk
    rw [hlhs, hslice]
    have hvmk : (g.getD k ⟨id, []⟩).vm = id := hvm _ (getD_mem g k _ hk)
    rcases hgk : g.getD k ⟨id, []⟩ with ⟨tv, tp⟩
    rw [hgk] at hvmk
    simp only at hvmk
    simp [hvmk]

theorem from_txs_some {txs : List Transaction} {p : Payload}
    (h : Payload.from_txs txs = some p) :
    ∃ regs, buildRegions (groupByNs txs) = some regs ∧
      (∀ w ∈ nsTableWords regs, w ≤ WORD_MAX) ∧
      p = ⟨(regs.map Prod.snd).flatten, ⟨wordsBytes (nsTableWords regs)⟩⟩ := by
  unfold Payload.from_txs at h
  split at h
  · exact absurd h (by simp)
  · rename_i regs hb
    split at h
    · exact absurd h (by simp)
    · rename_i nsB he
      obtain ⟨hbs, hw⟩ := encodeWords_eq_some he
      refine ⟨regs, hb, hw, ?_⟩
      rw [← Option.some.inj h, hbs]

theorem nsTable_entry_decode {regs : List (Nat × List Nat)}
    (hw : ∀ w ∈ nsTableWords regs, w ≤ WORD_MAX) (j : Nat) (hj : j < regs.length) :
    nsEntry ⟨wordsBytes (nsTableWords regs)⟩ j
      = ((regs.map Prod.fst).getD j 0,
          (ends 0 (regs.map (fun r => r.2.length))).getD j 0) := by
  have hlenids : (regs.map Prod.fst).length = regs.length := List.length_map _ _
  have hlenends : (ends 0 (regs.map (fun r => r.2.length))).length = regs.length := by
    rw [ends_length, List.length_map]
  have hIL : (interleave (regs.map Prod.fst)
      (ends 0 (regs.map (fun r => r.2.length)))).length = 2 * regs.length := by
    rw [interleave_length _ _ (by rw [hlenids, hlenends]), hlenids]
  have hWlen : (nsTableWords regs).length = 2 * regs.length + 1 := by
    simp only [nsTableWords, List.length_cons, hIL]
  have h1 := readWord_wordsBytes (nsTableWords regs) [] (2 * j + 1) hw (by omega)
  have h2 := readWord_wordsBytes (nsTableWords regs) [] (2 * j + 2) hw (by omega)
  rw [List.append_nil] at h1 h2
  show (readWord (wordsBytes (nsTableWords regs)) (WORD_BYTES * (2 * j + 1)),
      readWord (wordsBytes (nsTableWords regs)) (WORD_BYTES * (2 * j + 2))) = _
  rw [h1, h2]
  simp only [nsTableWords]
  rw [show 2 * j + 2 = (2 * j + 1) + 1 from rfl, List.getD_cons_succ,
    List.getD_cons_succ]
  rw [interleave_getD_even _ _ j (by omega) (by omega),
    interleave_getD_odd _ _ j (by omega) (by omega)]

theorem nsTable_count_decode {regs : List (Nat × List Nat)}
    (hw : ∀ w ∈ nsTableWords regs, w ≤ WORD_MAX) :
    nsEntryCount ⟨wordsBytes (nsTableWords regs)⟩ = regs.length := by
  have h0 := readWord_wordsBytes (nsTableWords regs) [] 0 hw (by simp [nsTableWords])
  rw [Nat.mul_zero, List.append_nil] at h0
  show readWord (wordsBytes (nsTableWords regs)) 0 = regs.length
  rw [h0, nsTableWords, List.getD_cons_zero]

theorem from_txs_decode {txs : List Transaction} {p : Payload}
    (h : Payload.from_txs txs = some p) :
    txsOf p p.ns_table = ((groupByNs txs).map Prod.snd).flatten := by
  obtain ⟨regs, hb, hw, hp⟩ := from_txs_some h
  obtain ⟨hlen, hpt⟩ := buildRegions_some hb
  subst hp
  have hcount : nsEntryCount ⟨wordsBytes (nsTableWords regs)⟩ = regs.length :=
    nsTable_count_decode hw
  have hlenends : (ends 0 (regs.map (fun r => r.2.length))).length = regs.length := by
    rw [ends_length, List.length_map]
  have hendD : ∀ j, j < regs.length →
      (ends 0 (regs.map (fun r => r.2.length))).getD j 0
        = ((regs.map (fun r => r.2.length)).take (j + 1)).sum := by
    intro j hj
    rw [ends_getD 0 _ j (by simpa using hj), Nat.zero_add]
  show txsOf ⟨(regs.map Prod.snd).flatten, ⟨wordsBytes (nsTableWords regs)⟩⟩
      ⟨wordsBytes (nsTableWords regs)⟩ = ((groupByNs txs).map Prod.snd).flatten
  rw [txsOf]
  simp only [hcount]
  congr 1
  apply ext_getD ([] : List Transaction)
  · simp [hlen]
  · intro j hj0
    have hj : j < regs.length := by simpa using hj0
    have hjg : j < (groupByNs txs).length := by omega
    have hentry := nsTable_entry_decode hw j hj
    have hrange1 : (nsRange ⟨wordsBytes (nsTableWords regs)⟩ j).1
        = (regs.getD j (0, [])).1 := by
      rw [nsRange, hentry]
      exact getD_map_fst_reg regs j hj
    have hrange2 : (nsRange ⟨wordsBytes (nsTableWords regs)⟩ j).2.1
        = ((regs.map (fun r => r.2.length)).take j).sum := by
      rw [nsRange]
      cases j with
      | zero => simp
      | succ j =>
        show (nsEntry _ (j + 1 - 1)).2 = _
        rw [Nat.succ_sub_one, nsTable_entry_decode hw j (by omega),
          hendD j (by omega)]
    have hrange3 : (nsRange ⟨wordsBytes (nsTableWords regs)⟩ j).2.2
        = ((regs.map (fun r => r.2.length)).take (j + 1)).sum := by
      rw [nsRange, hentry]
      show (ends 0 (regs.map (fun r => r.2.length))).getD j 0 = _
      exact hendD j hj
    have hsucc : ((regs.map (fun r => r.2.length)).take (j + 1)).sum
        = ((regs.map (fun r => r.2.length)).take j).sum
          + (regs.map (fun r => r.2.length)).getD j 0 := by
      rw [List.sum_take_succ _ j (by simpa using hj),
        List.getD_eq_getElem _ _ (by simpa using hj)]
    have hidx : (((regs.map Prod.snd).take j).map List.length).sum
        = ((regs.map (fun r => r.2.length)).take j).sum := by
      rw [List.map_take, List.map_map]
      rfl
    have hT : ((regs.map (fun r => r.2.length)).take (j + 1)).sum
          - ((regs.map (fun r => r.2.length)).take j).sum
        = ((regs.map Prod.snd).getD j []).length := by
      have hl1 := getD_map_len_reg regs j hj
      have hl2 : ((regs.map Prod.snd).getD j []).length
          = (regs.getD j (0, [])).2.length := by
        rw [getD_map_snd_reg regs j hj]
      omega
    have hslice : (((regs.map Prod.snd).flatten.drop
          ((nsRange ⟨wordsBytes (nsTableWords regs)⟩ j).2.1)).take
          ((nsRange ⟨wordsBytes (nsTableWords regs)⟩ j).2.2
            - (nsRange ⟨wordsBytes (nsTableWords regs)⟩ j).2.1))
        = (regs.getD j (0, [])).2 := by
      rw [hrange2, hrange3, hT, ← hidx,
        flatten_drop_take [] (regs.map Prod.snd) j (by simpa using hj)]
      exact getD_map_snd_reg regs j hj
    have hlhs : ((List.range regs.length).map (fun j =>
        nsTxs (nsRange ⟨wordsBytes (nsTableWords regs)⟩ j).1
          ((((⟨(regs.map Prod.snd).flatten, ⟨wordsBytes (nsTableWords regs)⟩⟩ :
                Payload)).raw_payload.drop
              ((nsRange ⟨wordsBytes (nsTableWords regs)⟩ j).2.1)).take
            ((nsRange ⟨wordsBytes (nsTableWords regs)⟩ j).2.2
              - (nsRange ⟨wordsBytes (nsTableWords regs)⟩ j).2.1)))).getD j []
        = nsTxs (nsRange ⟨wordsBytes (nsTableWords regs)⟩ j).1
          (((regs.map Prod.snd).flatten.drop
              ((nsRange ⟨wordsBytes (nsTableWords regs)⟩ j).2.1)).take
            ((nsRange ⟨wordsBytes (nsTableWords regs)⟩ j).2.2
              - (nsRange ⟨wordsBytes (nsTableWords regs)⟩ j).2.1)) := by
      rw [List.getD_eq_getElem _ _ (by simpa using hj)]
      simp only [List.getElem_map, List.getElem_range]
    obtain ⟨hfst, hreg⟩ := hpt j hjg
    have hmemg : ((groupByNs txs).getD j (0, [])) ∈ groupByNs txs :=
      getD_mem _ j _ hjg
    have hvm : ∀ t ∈ ((groupByNs txs).getD j (0, [])).2,
        t.vm = ((groupByNs txs).getD j (0, [])).1 := by
      intro t ht
      exact groupByNs_vm_eq (by rw [Prod.mk.eta]; exact hmemg) t ht
    have hdec : nsTxs ((groupByNs txs).getD j (0, [])).1 ((regs.getD j (0, [])).2)
        = ((groupByNs txs).getD j (0, [])).2 :=
      nsTxs_decode _ _ _ hreg hvm
    rw [hlhs, hslice, hrange1, hfst, hdec]
    rw [getD_map_snd_gs _ j hjg]

/-! ### Streaming SHA-256 lemmas -/

theorem absorb_nil (h : List Nat) : absorb h [] = (h, []) := by
  rw [absorb]
  simp

theorem absorb_short (h buf : List Nat) (hb : buf.length < 64) :
    absorb h buf = (h, buf) := by
  rw [absorb]
  rw [dif_neg (by omega)]

theorem absorb_append_fuel :
    ∀ (n : Nat) (x : List Nat), x.length ≤ n → ∀ (h y : List Nat),
      absorb h (x ++ y) = absorb (absorb h x).1 ((absorb h x).2 ++ y) := by
  intro n
  induction n with
  | zero =>
    intro x hx h y
    have hnil : x = [] := List.eq_nil_of_length_eq_zero (by omega)
    subst hnil
    rw [absorb_nil]
  | succ n ih =>
    intro x hx h y
    by_cases h64 : 64 ≤ x.length
    · have hx64 : absorb h x = absorb (compress h (x.take 64)) (x.drop 64) := by
        rw [absorb]
        rw [dif_pos h64]
      have hxy64 : absorb h (x ++ y)
          = absorb (compress h ((x ++ y).take 64)) ((x ++ y).drop 64) := by
        rw [absorb]
        rw [dif_pos (by simp only [List.length_append]; omega)]
      have htake : (x ++ y).take 64 = x.take 64 :=
        List.take_append_of_le_length h64
      have hdrop : (x ++ y).drop 64 = x.drop 64 ++ y :=
        List.drop_append_of_le_length h64
      have hlen : (x.drop 64).length ≤ n := by
        simp only [List.length_drop]
        omega
      rw [hxy64, htake, hdrop, ih (x.drop 64) hlen _ y, hx64]
    · have hx0 : absorb h x = (h, x) := absorb_short h x (by omega)
      rw [hx0]

theorem absorb_append (x h y : List Nat) :
    absorb h (x ++ y) = absorb (absorb h x).1 ((absorb h x).2 ++ y) :=
  absorb_append_fuel x.length x (Nat.le_refl _) h y

theorem Hasher.update_update (st : Hasher) (a b : List Nat) :
    (st.update a).update b = st.update (a ++ b) := by
  show Hasher.mk _ _ _ = Hasher.mk _ _ _
  rw [Hasher.mk.injEq]
  refine ⟨?_, ?_, ?_⟩
  · show (absorb (absorb st.hash (st.buf ++ a)).1
        ((absorb st.hash (st.buf ++ a)).2 ++ b)).1
      = (absorb st.hash (st.buf ++ (a ++ b))).1
    rw [← absorb_append, List.append_assoc]
  · show (absorb (absorb st.hash (st.buf ++ a)).1
        ((absorb st.hash (st.buf ++ a)).2 ++ b)).2
      = (absorb st.hash (st.buf ++ (a ++ b))).2
    rw [← absorb_append, List.append_assoc]
  · show st.len + a.length + b.length = st.len + (a ++ b).length
    simp [List.length_append, Nat.add_assoc]

theorem finalize_new_update (D : List Nat) :
    (Hasher.new.update D).finalize = sha256 D := by
  show ((absorb (absorb shaH0 ([] ++ D)).1
      ((absorb shaH0 ([] ++ D)).2 ++ padTail (0 + D.length))).1.map (u_be 4)).flatten
    = sha256 D
  rw [List.nil_append, ← absorb_append, Nat.zero_add]
  rfl

theorem builder_commitment_eq_sha256 (p : Payload) (m : NsTable) :
    builder_commitment p m
      = sha256 (commitmentPreimage p.raw_payload p.ns_table.bytes m.bytes) := by
  unfold builder_commitment commitmentPreimage
  rw [Hasher.update_update, Hasher.update_update, Hasher.update_update,
    Hasher.update_update, Hasher.update_update, finalize_new_update]
  congr 1
  simp [List.append_assoc]

/-! ### Pre-image injectivity and overflow lemmas -/

theorem commitmentPreimage_inj (a b c a' b' c' : List Nat)
    (ha : a.length < 2 ^ 64) (ha' : a'.length < 2 ^ 64)
    (hb : b.length < 2 ^ 64) (hb' : b'.length < 2 ^ 64)
    (hc : c.length < 2 ^ 64) (hc' : c'.length < 2 ^ 64)
    (h : commitmentPreimage a b c = commitmentPreimage a' b' c') :
    a = a' ∧ b = b' ∧ c = c' := by
  have hpow : (2 : Nat) ^ (8 * 8) = 2 ^ 64 := by norm_num
  unfold commitmentPreimage at h
  simp only [List.append_assoc] at h
  obtain ⟨h1, h2⟩ := List.append_inj h (by rw [u_le_length, u_le_length])
  obtain ⟨h3, h4⟩ := List.append_inj h2 (by rw [u_le_length, u_le_length])
  obtain ⟨h5, h6⟩ := List.append_inj h4 (by rw [u_le_length, u_le_length])
  have hla : a.length = a'.length := by
    have hv := congrArg leVal h1
    rwa [leVal_u_le_of_lt 8 _ (by rw [hpow]; exact ha),
      leVal_u_le_of_lt 8 _ (by rw [hpow]; exact ha')] at hv
  obtain ⟨hA, h7⟩ := List.append_inj h6 hla
  have hlb : b.length = b'.length := by
    have hv := congrArg leVal h3
    rwa [leVal_u_le_of_lt 8 _ (by rw [hpow]; exact hb),
      leVal_u_le_of_lt 8 _ (by rw [hpow]; exact hb')] at hv
  obtain ⟨hB, hC⟩ := List.append_inj h7 hlb
  exact ⟨hA, hB, hC⟩

theorem getD_map_regionLen (gs : List (Nat × List Transaction)) (j : Nat)
    (hj : j < gs.length) :
    (gs.map (fun x => regionLen x.2)).getD j 0 = regionLen (gs.getD j (0, [])).2 := by
  rw [List.getD_eq_getElem _ _ (by simpa using hj), List.getD_eq_getElem _ _ hj,
    List.getElem_map]

theorem nsRegion_length {g : List Transaction} {r : List Nat}
    (h : nsRegion g = some r) : r.length = regionLen g := by
  obtain ⟨hr, _⟩ := nsRegion_some h
  rw [hr, List.length_append, wordsBytes_length, regionLen]
  congr 1
  · simp [txTableWords, ends_length]
  · rw [List.length_flatten, List.map_map]
    rfl

theorem interleave_mem_right (xs ys : List Nat) (h : xs.length = ys.length) :
    ∀ y ∈ ys, y ∈ interleave xs ys := by
  induction xs generalizing ys with
  | nil =>
    cases ys with
    | nil => intro y hy; simp at hy
    | cons b ys => simp at h
  | cons x xs ih =>
    cases ys with
    | nil => intro y hy; simp at hy
    | cons b ys =>
      intro y hy
      rcases List.mem_cons.mp hy with hyb | hy'
      · subst hyb
        exact List.mem_cons_of_mem _ (List.mem_cons_self _ _)
      · simp only [List.length_cons] at h
        have hmem := ih ys (by omega) y hy'
        exact List.mem_cons_of_mem _ (List.mem_cons_of_mem _ hmem)

theorem regionLens_eq {txs : List Transaction} {regs : List (Nat × List Nat)}
    (hb : buildRegions (groupByNs txs) = some regs) :
    regs.map (fun r => r.2.length) = (groupByNs txs).map (fun x => regionLen x.2) := by
  obtain ⟨hlen, hpt⟩ := buildRegions_some hb
  apply ext_getD 0
  · simp [hlen]
  · intro i hi
    have hi' : i < (groupByNs txs).length := by simpa [hlen] using hi
    have hi'' : i < regs.length := by simpa using hi
    rw [getD_map_len_reg regs i hi'', getD_map_regionLen _ i hi']
    obtain ⟨_, hreg⟩ := hpt i hi'
    exact nsRegion_length hreg

theorem from_txs_overflow {txs : List Transaction}
    (h : WORD_MAX < requiredPayloadLen txs) :
    Payload.from_txs txs = none := by
  unfold Payload.from_txs
  split
  · rfl
  · rename_i regs hb
    split
    · rfl
    · rename_i nsB he
      exfalso
      obtain ⟨_, hwall⟩ := encodeWords_eq_some he
      obtain ⟨hlen, _⟩ := buildRegions_some hb
      have hsum : (regs.map (fun r => r.2.length)).sum = requiredPayloadLen txs := by
        rw [regionLens_eq hb, requiredPayloadLen]
      have hne : regs ≠ [] := by
        intro hnil
        rw [hnil] at hsum
        simp at hsum
        rw [← hsum] at h
        omega
      have hlmem : (regs.map (fun r => r.2.length)).sum
          ∈ ends 0 (regs.map (fun r => r.2.length)) := by
        have hl : regs.map (fun r => r.2.length) ≠ [] := by
          simpa using hne
        have := ends_sum_mem 0 (regs.map (fun r => r.2.length)) hl
        simpa using this
      have hWmem : (regs.map (fun r => r.2.length)).sum ∈ nsTableWords regs := by
        unfold nsTableWords
        apply List.mem_cons_of_mem
        apply interleave_mem_right _ _ _ _ hlmem
        rw [List.length_map, ends_length, List.length_map]
      have hle := hwall _ hWmem
      omega

theorem from_transactions_overflow {σ : Type} (txs : List Transaction) (s : σ)
    (h : WORD_MAX < requiredPayloadLen txs) :
    from_transactions txs s = .error .BlockBuilding := by
  unfold from_transactions
  rw [from_txs_overflow h]

theorem requiredPayloadLen_single (v : Nat) (pl : List Nat) :
    requiredPayloadLen [⟨v, pl⟩] = WORD_BYTES * 2 + pl.length := by
  have h1 : groupByNs [⟨v, pl⟩] = [(v, [⟨v, pl⟩])] := by
    rw [groupByNs]
    simp only [List.length_cons, List.length_nil]
    simp only [groupByNsGo, List.filter_nil]
  rw [requiredPayloadLen, h1]
  simp [regionLen]

/-! ### Claim theorems -/

/-- C1: `builder_commitment(payload, metadata)` returns the SHA-256 digest of the byte
string formed, in this exact order, by the 8-byte little-endian length of `raw_payload`,
of `ns_table.bytes` and of `metadata.bytes`, then `raw_payload`, `ns_table.bytes` and
`metadata.bytes` — all three length prefixes first, then the three byte strings — for
every payload and metadata. -/
theorem C1_builder_commitment_digest (p : Payload) (m : NsTable) :
    builder_commitment p m
      = sha256 (u_le 8 p.raw_payload.length ++ u_le 8 p.ns_table.bytes.length
          ++ u_le 8 m.bytes.length ++ p.raw_payload ++ p.ns_table.bytes ++ m.bytes) :=
  builder_commitment_eq_sha256 p m

/-- C2: whenever `from_transactions(txs, state)` succeeds with `(payload, metadata)`,
`get_transactions(payload, metadata)` yields exactly the transactions of `txs` grouped by
namespace in order of first appearance, each group preserving the supplied relative order
(each group equals the filter of `txs` on its namespace id). -/
theorem C2_round_trip {σ : Type} (txs : List Transaction) (s : σ) (p : Payload)
    (m : NsTable) (h : from_transactions txs s = .ok (p, m)) :
    get_transactions p m = ((groupByNs txs).map Prod.snd).flatten ∧
      ∀ x ∈ groupByNs txs, x.2 = txs.filter (fun u => u.vm == x.1) := by
  constructor
  · have hok : Payload.from_txs txs = some p ∧ m = p.ns_table := by
      unfold from_transactions at h
      split at h
      · rename_i payload hfp
        have heq := Except.ok.inj h
        have h1 : payload = p := congrArg Prod.fst heq
        have h2 : payload.ns_table = m := congrArg Prod.snd heq
        subst h1
        exact ⟨hfp, h2.symm⟩
      · exact absurd h (by simp)
    obtain ⟨hfp, hm⟩ := hok
    rw [hm, get_transactions, Payload.enumerate, List.enum_map_snd]
    exact from_txs_decode hfp
  · intro x hx
    exact groupByNs_filter txs.length txs (Nat.le_refl _) x.1 x.2
      (by rw [Prod.mk.eta]; exact hx)

/-- Witness for C2 at a concrete three-transaction, two-namespace input. -/
theorem C2_round_trip_witness :
    get_transactions
        ⟨[2, 0, 0, 0, 2, 0, 0, 0, 3, 0, 0, 0, 10, 20, 40, 1, 0, 0, 0, 1, 0, 0, 0, 30],
          ⟨[2, 0, 0, 0, 1, 0, 0, 0, 15, 0, 0, 0, 2, 0, 0, 0, 24, 0, 0, 0]⟩⟩
        ⟨[2, 0, 0, 0, 1, 0, 0, 0, 15, 0, 0, 0, 2, 0, 0, 0, 24, 0, 0, 0]⟩
      = ((groupByNs [⟨1, [10, 20]⟩, ⟨2, [30]⟩, ⟨1, [40]⟩]).map Prod.snd).flatten ∧
      ∀ x ∈ groupByNs [⟨1, [10, 20]⟩, ⟨2, [30]⟩, ⟨1, [40]⟩],
        x.2 = [⟨1, [10, 20]⟩, ⟨2, [30]⟩, ⟨1, [40]⟩].filter (fun u => u.vm == x.1) :=
  C2_round_trip [⟨1, [10, 20]⟩, ⟨2, [30]⟩, ⟨1, [40]⟩] NodeState.mock _ _ rfl

/-- C3: a transaction set whose required end offset exceeds the Word's maximum
representable value makes `from_transactions` return the block-building error value —
no silent truncation and no panic. (`requiredPayloadLen` is the final, largest required
end offset, so any overflowing offset implies this hypothesis.) -/
theorem C3_overflow_rejected {σ : Type} (txs : List Transaction) (s : σ)
    (h : WORD_MAX < requiredPayloadLen txs) :
    from_transactions txs s = .error .BlockBuilding :=
  from_transactions_overflow txs s h

/-- Witness for C3: a single transaction of 2^32 bytes overflows the 4-byte Word. -/
theorem C3_overflow_rejected_witness :
    WORD_MAX < requiredPayloadLen [⟨0, List.replicate (2 ^ 32) 0⟩] ∧
      from_transactions [⟨0, List.replicate (2 ^ 32) 0⟩] NodeState.mock
        = .error .BlockBuilding := by
  have h2 := requiredPayloadLen_single 0 (List.replicate (2 ^ 32) 0)
  rw [List.length_replicate] at h2
  have h : WORD_MAX < requiredPayloadLen [⟨0, List.replicate (2 ^ 32) 0⟩] := by
    rw [h2, WORD_MAX, WORD_BYTES]
    norm_num
  exact ⟨h, C3_overflow_rejected _ NodeState.mock h⟩

/-- C4: `genesis()` always succeeds: it equals the (Ok) result of `from_transactions` on
the empty transaction list with the mock state, its payload has zero-length raw bytes and
its namespace table has zero entries. -/
theorem C4_genesis :
    from_transactions [] NodeState.mock = .ok genesis ∧
      genesis.1.raw_payload = [] ∧ nsEntryCount genesis.2 = 0 :=
  ⟨rfl, rfl, rfl⟩

/-- C5: `encode` never returns an error and returns exactly the payload's raw bytes with
no framing; hence `encode(from_bytes(b, m)) = Ok b` for every byte string and metadata. -/
theorem C5_encode_verbatim :
    (∀ p : Payload, p.encode = Except.ok p.raw_payload) ∧
      ∀ (b : List Nat) (m : NsTable), (Payload.from_bytes b m).encode = Except.ok b :=
  ⟨fun _ => rfl, fun _ _ => rfl⟩

/-- C6: `from_bytes(raw_bytes, metadata)` is infallible (a total function) and returns a
payload whose raw bytes are a verbatim copy of the input and whose namespace table is the
given metadata, with no validation or re-derivation. -/
theorem C6_from_bytes_verbatim (b : List Nat) (m : NsTable) :
    (Payload.from_bytes b m).raw_payload = b ∧ (Payload.from_bytes b m).ns_table = m :=
  ⟨rfl, rfl⟩

/-- C7: `transaction_commitments(payload, metadata)` returns exactly one commitment per
transaction in canonical enumeration order: it equals mapping the transaction commitment
over `get_transactions(payload, metadata)`, and in particular has the same length. -/
theorem C7_transaction_commitments (p : Payload) (m : NsTable) :
    transaction_commitments p m = (get_transactions p m).map Transaction.commit ∧
      (transaction_commitments p m).length = (get_transactions p m).length := by
  constructor
  · rw [transaction_commitments, get_transactions, List.map_map]
    rfl
  · rw [transaction_commitments, get_transactions, List.length_map, List.length_map]

/-- C8: the chain-state argument of `from_transactions` does not affect its output: for
every transaction list and any two states (of any types), the results are identical. -/
theorem C8_state_irrelevant {σ τ : Type} (txs : List Transaction) (s : σ) (t : τ) :
    from_transactions txs s = from_transactions txs t := rfl

/-- C9: `builder_commitment` is a pure function of `(raw_payload, ns_table.bytes,
metadata.bytes)` — equal inputs give byte-identical digests; the digest is the SHA-256 of
the length-prefixed pre-image, and that pre-image is injective in the three byte strings
(lengths below 2^64, as for any Rust `Vec<u8>`), so changing any single byte of any of
the three inputs changes the digested pre-image. -/
theorem C9_determinism_injectivity :
    (∀ (p p' : Payload) (m m' : NsTable),
        p.raw_payload = p'.raw_payload → p.ns_table.bytes = p'.ns_table.bytes →
        m.bytes = m'.bytes → builder_commitment p m = builder_commitment p' m') ∧
      (∀ (p : Payload) (m : NsTable),
        builder_commitment p m
          = sha256 (commitmentPreimage p.raw_payload p.ns_table.bytes m.bytes)) ∧
      ∀ a b c a' b' c' : List Nat,
        a.length < 2 ^ 64 → a'.length < 2 ^ 64 → b.length < 2 ^ 64 →
        b'.length < 2 ^ 64 → c.length < 2 ^ 64 → c'.length < 2 ^ 64 →
        commitmentPreimage a b c = commitmentPreimage a' b' c' →
        a = a' ∧ b = b' ∧ c = c' := by
  refine ⟨?_, builder_commitment_eq_sha256, commitmentPreimage_inj⟩
  intro p p' m m' h1 h2 h3
  rw [builder_commitment_eq_sha256, builder_commitment_eq_sha256, h1, h2, h3]

/-- Witness for C9 at concrete one-byte inputs. -/
theorem C9_determinism_injectivity_witness :
    builder_commitment ⟨[1], ⟨[2]⟩⟩ ⟨[3]⟩ = builder_commitment ⟨[1], ⟨[2]⟩⟩ ⟨[3]⟩ ∧
      ([1] = ([1] : List Nat) ∧ [2] = ([2] : List Nat) ∧ [3] = ([3] : List Nat)) :=
  ⟨C9_determinism_injectivity.1 ⟨[1], ⟨[2]⟩⟩ ⟨[1], ⟨[2]⟩⟩ ⟨[3]⟩ ⟨[3]⟩ rfl rfl rfl,
    C9_determinism_injectivity.2.2 [1] [2] [3] [1] [2] [3]
      (by decide) (by decide) (by decide) (by decide) (by decide) (by decide) rfl⟩

/-- C10: whenever `from_transactions` succeeds with `(payload, metadata)`, the standalone
metadata equals the namespace table embedded in the payload, so the two serializations
fed into `builder_commitment` are identical for payloads built this way. -/
theorem C10_metadata_clone {σ : Type} (txs : List Transaction) (s : σ) (p : Payload)
    (m : NsTable) (h : from_transactions txs s = .ok (p, m)) :
    m = p.ns_table ∧ m.bytes = p.ns_table.bytes := by
  unfold from_transactions at h
  split at h
  · rename_i payload hfp
    have heq := Except.ok.inj h
    have h1 : payload = p := congrArg Prod.fst heq
    have h2 : payload.ns_table = m := congrArg Prod.snd heq
    subst h1
    exact ⟨h2.symm, by rw [h2]⟩
  · exact absurd h (by simp)

/-- Witness for C10 at a concrete one-transaction input. -/
theorem C10_metadata_clone_witness :
    (⟨[1, 0, 0, 0, 7, 0, 0, 0, 9, 0, 0, 0]⟩ : NsTable)
        = (⟨[1, 0, 0, 0, 1, 0, 0, 0, 9],
            ⟨[1, 0, 0, 0, 7, 0, 0, 0, 9, 0, 0, 0]⟩⟩ : Payload).ns_table ∧
      (⟨[1, 0, 0, 0, 7, 0, 0, 0, 9, 0, 0, 0]⟩ : NsTable).bytes
        = (⟨[1, 0, 0, 0, 1, 0, 0, 0, 9],
            ⟨[1, 0, 0, 0, 7, 0, 0, 0, 9, 0, 0, 0]⟩⟩ : Payload).ns_table.bytes :=
  C10_metadata_clone [⟨7, [9]⟩] NodeState.mock _ _ rfl
